import Mathlib

/-!
Verification of the htsget server core (BGZF codec, CSI-style index reader,
chunk planner, block reassembler) against a shallow embedding of the Go
sources.  Machine integers are embedded as `Nat` with explicit reductions
modulo `2 ^ 16`, `2 ^ 32`, `2 ^ 48` or `2 ^ 64` exactly where the Go code
performs fixed-width arithmetic.
-/

namespace Htsget

/-! Part: BGZF virtual addresses and chunks (internal/bgzf/bgzf.go) -/

/-- Go `bgzf.LastAddress`, the maximum valid BGZF address (`0xffffffffffffffff`). -/
def lastAddress : ℕ := 2 ^ 64 - 1

/-- Go `bgzf.MaximumBlockSize` (65536). -/
def maximumBlockSize : ℕ := 65536

/-- Go `Address.BlockOffset`: `uint64(v >> 16)`, the compressed-block offset held in
the upper 48 bits of a virtual address.  On the `uint64` domain (`v < 2 ^ 64`)
this is exactly `v / 2 ^ 16`. -/
def blockOffset (v : ℕ) : ℕ := v / 65536

/-- Go `Address.DataOffset`: `uint16(v & 0xffff)`, the offset into the uncompressed
block held in the lower 16 bits of a virtual address. -/
def dataOffset (v : ℕ) : ℕ := v % 65536

/-- Go `bgzf.Chunk`: a region from `Start` to `End` inside a BGZF file.  Both fields
are `bgzf.Address` (`uint64`) values, embedded as `Nat`. -/
structure Chunk where
  Start : ℕ
  End : ℕ
  deriving DecidableEq, Repr, Inhabited

/-- A chunk is a well-formed `uint64` pair when both addresses fit in 64 bits;
every value of the Go type `bgzf.Chunk` satisfies this. -/
def Chunk.Wf (c : Chunk) : Prop := c.Start < 2 ^ 64 ∧ c.End < 2 ^ 64

instance (c : Chunk) : Decidable c.Wf := by
  unfold Chunk.Wf
  infer_instance

/-- The size estimate computed inside `bgzf.Merge` for folding `cur` into the
running tail `tail`:

* same-block case (`input[i].End.BlockOffset() == output.Start.BlockOffset()`):
  `uint64(input[i].End.DataOffset() - output.Start.DataOffset())`, a `uint16`
  subtraction that wraps modulo `2 ^ 16`;
* otherwise `input[i].End.BlockOffset() - output.Start.BlockOffset() +
  MaximumBlockSize`, a `uint64` computation that wraps modulo `2 ^ 64`. -/
def mergeSize (tail cur : Chunk) : ℕ :=
  if blockOffset cur.End = blockOffset tail.Start then
    (dataOffset cur.End + 2 ^ 16 - dataOffset tail.Start) % 2 ^ 16
  else
    (blockOffset cur.End + 2 ^ 64 - blockOffset tail.Start + maximumBlockSize) % 2 ^ 64

/-- The merge condition of `bgzf.Merge`:
`input[i].Start <= output.End && size <= sizeLimit`. -/
def canMerge (limit : ℕ) (tail cur : Chunk) : Prop :=
  cur.Start ≤ tail.End ∧ mergeSize tail cur ≤ limit

instance (limit : ℕ) (tail cur : Chunk) : Decidable (canMerge limit tail cur) := by
  unfold canMerge
  infer_instance

/-- The loop of `bgzf.Merge` over the sorted input, carrying the running tail
chunk (`output` in the Go code).  Folding extends the tail's `End` to
`max(output.End, input[i].End)` (the Go code only assigns when it grows);
otherwise the tail is emitted and the current chunk becomes the new tail. -/
def mergeLoop (limit : ℕ) : Chunk → List Chunk → List Chunk
  | tail, [] => [tail]
  | tail, cur :: rest =>
    if canMerge limit tail cur then
      mergeLoop limit { tail with End := max tail.End cur.End } rest
    else
      tail :: mergeLoop limit cur rest

/-- The comparison used by `bgzf.Merge` to sort its input
(`input[i].Start < input[j].Start`), as the corresponding total preorder. -/
def startLE (a b : Chunk) : Prop := a.Start ≤ b.Start

instance : DecidableRel startLE := fun a b => Nat.decLe a.Start b.Start

instance : IsTotal Chunk startLE := ⟨fun a b => Nat.le_total a.Start b.Start⟩

instance : IsTrans Chunk startLE := ⟨fun _ _ _ h h2 => Nat.le_trans h h2⟩

/-- The `sort.Slice(input, ...)` step of `bgzf.Merge`: sort by `Start`
ascending.  (Go's sort is unstable; insertion sort is one refinement of it.) -/
def sortChunks (l : List Chunk) : List Chunk := l.insertionSort startLE

/-- Go `bgzf.Merge`: sort by `Start`, then fold each chunk into the running tail.
The Go function dereferences `input[0]` after sorting and therefore panics on
an empty slice; the panic is embedded as `none`. -/
def Merge (input : List Chunk) (limit : ℕ) : Option (List Chunk) :=
  match sortChunks input with
  | [] => none
  | first :: rest => some (mergeLoop limit first rest)

/-! Part: The merge algorithm as worded by the spec (for the refinement claim C2) -/

/-- Written from the spec's words: the predicted size of merging the current
chunk into the running tail.  "(a) tail's block offset equals current's end
block offset, treat size as the difference in data offsets; else (b) treat size
as `(current.end.block - tail.start.block) + MAX_BLOCK_SIZE`".  The differences
are the differences of the underlying 16-bit data-offset and 48-bit
block-offset fields inside 16-bit respectively 64-bit unsigned arithmetic. -/
def specSize (tail cur : Chunk) : ℕ :=
  if blockOffset cur.End = blockOffset tail.Start then
    (dataOffset cur.End + 2 ^ 16 - dataOffset tail.Start) % 2 ^ 16
  else
    (blockOffset cur.End + 2 ^ 64 - blockOffset tail.Start + maximumBlockSize) % 2 ^ 64

/-- Written from the spec's words: one folding step.  "Merge only if
`current.start <= tail.end` AND predicted size <= `size_limit`.  Extend tail's
`end` to `max(tail.end, current.end)`.  Otherwise start a new tail." -/
def mergeStep (limit : ℕ) (st : List Chunk × Chunk) (cur : Chunk) : List Chunk × Chunk :=
  if cur.Start ≤ st.2.End ∧ specSize st.2 cur ≤ limit then
    (st.1, { st.2 with End := max st.2.End cur.End })
  else
    (st.1 ++ [st.2], cur)

/-- Written from the spec's words: "Sort by `start` ascending.  Iteratively fold
each chunk into the running tail", as a left fold whose state is the list of
finished tails together with the running tail. -/
def MergeSpec (input : List Chunk) (limit : ℕ) : Option (List Chunk) :=
  match sortChunks input with
  | [] => none
  | first :: rest =>
    let st := rest.foldl (mergeStep limit) ([], first)
    some (st.1 ++ [st.2])

/-! Part: Pointer-level embedding of `bgzf.Merge` (for the frame-effect claim C10)

The Go function receives a slice of chunk pointers.  `sort.Slice` reorders the
pointer slice in place, the returned slice aliases elements of the input, and
folding a chunk into the running tail writes through the tail pointer into a
chunk object shared with the input.  The heap is embedded as a list of chunk
values indexed by pointer. -/

/-- The sort comparison read through the heap:
`input[i].Start < input[j].Start`, as a total preorder on pointers. -/
def heapStartLE (heap : List Chunk) (i j : ℕ) : Prop :=
  (heap.getD i default).Start ≤ (heap.getD j default).Start

instance (heap : List Chunk) : DecidableRel (heapStartLE heap) := fun i j =>
  Nat.decLe (heap.getD i default).Start (heap.getD j default).Start

/-- The in-place `sort.Slice(input, ...)` step: the state of the input pointer
slice after `bgzf.Merge` returns. -/
def sortPtrs (heap : List Chunk) (ptrs : List ℕ) : List ℕ :=
  ptrs.insertionSort (heapStartLE heap)

/-- The loop of `bgzf.Merge` at the pointer level: `merged` is the output slice
of pointers, `outPtr` the pointer `output` to the running tail.  Merging
mutates the heap cell behind `outPtr`. -/
def mergeHeapLoop (limit : ℕ) : List Chunk → List ℕ → ℕ → List ℕ → List ℕ × List Chunk
  | heap, merged, _, [] => (merged, heap)
  | heap, merged, outPtr, i :: rest =>
    let out := heap.getD outPtr default
    let cur := heap.getD i default
    if canMerge limit out cur then
      mergeHeapLoop limit (heap.set outPtr { out with End := max out.End cur.End }) merged outPtr
        rest
    else
      mergeHeapLoop limit heap (merged ++ [i]) i rest

/-- Go `bgzf.Merge` at the pointer level: returns the output pointer slice together
with the final heap (`none` embeds the panic on empty input). -/
def mergeHeap (heap : List Chunk) (ptrs : List ℕ) (limit : ℕ) : Option (List ℕ × List Chunk) :=
  match sortPtrs heap ptrs with
  | [] => none
  | p :: rest => some (mergeHeapLoop limit heap [p] p rest)

/-! Part: Genomic binning math (internal/index/index.go, internal/bam/bam.go) -/

/-- Go `maximumBinWidth`: `uint32(1 << uint32(minShift+depth*3))`.  The shift is
performed in 64-bit arithmetic and then truncated to `uint32`; for any shift
amount of 32 or more the result is 0, which `2 ^ k % 2 ^ 32` reproduces. -/
def maximumBinWidth (minShift depth : ℕ) : ℕ := 2 ^ (minShift + depth * 3) % 2 ^ 32

/-- The inner bin loop `for i := b; i <= e; i++`. -/
def binRange (b e : ℕ) : List ℕ := if b ≤ e then List.range' b (e + 1 - b) else []

/-- The level walk of `binsForRange`: `n` counts the remaining levels
(`depth + 1` in total), `t` the running level offset, `s` the running shift and
`l` the level.  Each appended bin id is truncated to `uint16`, and `t` is
accumulated in Go `uint` (64-bit) arithmetic. -/
def binsLevels (start e : ℕ) : ℕ → ℕ → ℕ → ℕ → List ℕ
  | 0, _, _, _ => []
  | n + 1, t, s, l =>
    (binRange (t + (start >>> s)) (t + (e >>> s))).map (· % 2 ^ 16)
      ++ binsLevels start e n ((t + 2 ^ (l * 3)) % 2 ^ 64) (s - 3) (l + 1)

/-- Go `binsForRange(start, end, minShift, depth)` from `internal/index/index.go`
(identically `csi.BinsForRange`): clamp `end`, handle the empty cases, decrement
`end`, then walk the levels. -/
def binsForRange (start e minShift depth : ℕ) : List ℕ :=
  let mw := maximumBinWidth minShift depth
  let e2 := if e = 0 ∨ mw < e then mw else e
  if e2 ≤ start then []
  else if mw < start then []
  else binsLevels start (e2 - 1) (depth + 1) 0 (minShift + depth * 3) 0

/-! Part: BAI index reader (internal/bam/bam.go) -/

/-- Go `metadataID`: the virtual bin id used for chunk metadata. -/
def metadataID : ℕ := 37450

/-- Go `linearWindowSize`: the size of each linear-index tiling window. -/
def linearWindowSize : ℕ := 2 ^ 14

/-- Go `maximumReadLength`: `1 << 29`. -/
def maximumReadLength : ℕ := 2 ^ 29

/-- Go `genomics.Region`: `ReferenceID` is `int32`, `Start`/`End` are `uint32`. -/
structure Region where
  ReferenceID : ℤ
  Start : ℕ
  End : ℕ
  deriving DecidableEq, Repr

/-- Go `genomics.AllMappedReads`: `Region{ReferenceID: -1}`. -/
def allMappedReads : Region := { ReferenceID := -1, Start := 0, End := 0 }

/-- Go `regionContainsBin` from `internal/bam/bam.go`. -/
def regionContainsBin (region : Region) (referenceID : ℤ) (binID : ℕ) (bins : List ℕ) : Bool :=
  if 0 ≤ region.ReferenceID ∧ referenceID ≠ region.ReferenceID then false
  else if region.Start = 0 ∧ region.End = 0 then true
  else bins.any (fun id => id == binID)

/-- One unrolled level loop of `bam.binsForRange`:
`for k := uint16(a); k <= uint16(b); k++ { bins = append(bins, k) }`. -/
def u16span (a b : ℕ) : List ℕ := binRange (a % 2 ^ 16) (b % 2 ^ 16)

/-- Go `binsForRange(start, end)` from `internal/bam/bam.go`: the fixed
`(min_shift = 14, depth = 5)` scheme with unrolled level loops. -/
def binsForRangeBAI (start e : ℕ) : List ℕ :=
  let e2 := if e = 0 ∨ maximumReadLength < e then maximumReadLength else e
  if e2 ≤ start then []
  else if maximumReadLength < start then []
  else
    let e3 := e2 - 1
    [0] ++ u16span (1 + (start >>> 26)) (1 + (e3 >>> 26))
      ++ u16span (9 + (start >>> 23)) (9 + (e3 >>> 23))
      ++ u16span (73 + (start >>> 20)) (73 + (e3 >>> 20))
      ++ u16span (585 + (start >>> 17)) (585 + (e3 >>> 17))
      ++ u16span (4681 + (start >>> 14)) (4681 + (e3 >>> 14))

/-- One bin of a parsed BAI reference: bin id (`uint32`) and its chunk list. -/
structure BaiBin where
  id : ℕ
  chunks : List Chunk
  deriving DecidableEq, Repr

/-- One parsed BAI reference: its bins followed by the linear index (an array of
`uint64` virtual addresses). -/
structure BaiReference where
  bins : List BaiBin
  offsets : List ℕ
  deriving DecidableEq, Repr

/-- The inner chunk loop of `bam.Read` for one bin, acting on the running state
`(header.End, candidates)`.  A chunk of the virtual metadata bin is skipped
before both candidate collection and header tightening (`continue`); otherwise
it is appended to `candidates` when the bin is included, and the header is
tightened: `if header.End > chunk.Start { header.End = chunk.Start }`. -/
def processBin (region : Region) (refID : ℤ) (bins : List ℕ) (st : ℕ × List Chunk)
    (bin : BaiBin) : ℕ × List Chunk :=
  let includeChunks := regionContainsBin region refID bin.id bins
  bin.chunks.foldl
    (fun st c =>
      if bin.id = metadataID then st
      else
        ((if c.Start < st.1 then c.Start else st.1),
          if includeChunks then st.2 ++ [c] else st.2))
    st

/-- One reference iteration of `bam.Read`: collect candidates over the bins
(threading the header end), compute `firstReadOffset` from the linear index,
and append every candidate whose `End` is not below it. -/
def processReference (region : Region) (bins : List ℕ) (st : ℕ × List Chunk)
    (p : ℕ × BaiReference) : ℕ × List Chunk :=
  let binSt := p.2.bins.foldl (processBin region (p.1 : ℤ) bins) (st.1, [])
  let firstReadOffset :=
    if region.Start / linearWindowSize < p.2.offsets.length then
      p.2.offsets.getD (region.Start / linearWindowSize) 0
    else 0
  (binSt.1, st.2 ++ binSt.2.filter (fun c => decide (firstReadOffset ≤ c.End)))

/-- Go `bam.Read` over a parsed index (the little-endian byte parsing of the BAI
stream is abstracted to the structured `refs` input; the claims below concern
the chunk-list algebra, not the byte decoding).  The header chunk starts as
`(0, LastAddress)`, sits at position 0 of the output, and is tightened by every
non-virtual chunk across all references. -/
def bamRead (refs : List BaiReference) (region : Region) : List Chunk :=
  let bins := binsForRangeBAI region.Start region.End
  let st := refs.enum.foldl (processReference region bins) (lastAddress, [])
  { Start := 0, End := st.1 } :: st.2

/-- The starts of every chunk of every non-virtual bin of one reference, in
encounter order. -/
def refNonVirtualStarts (ref : BaiReference) : List ℕ :=
  (ref.bins.filter (fun b => b.id ≠ metadataID)).flatMap fun b => b.chunks.map Chunk.Start

/-- The starts of every chunk of every non-virtual bin, in encounter order
(written from the spec's words, to compare with the header tightening that
`bamRead` actually performs). -/
def nonVirtualChunkStarts (refs : List BaiReference) : List ℕ :=
  refs.flatMap refNonVirtualStarts

/-- The starts of every chunk encountered by the reader, including those of the
virtual metadata bin (written from the claim's words "every chunk encountered
across all references"). -/
def allChunkStarts (refs : List BaiReference) : List ℕ :=
  refs.flatMap fun ref => ref.bins.flatMap fun b => b.chunks.map Chunk.Start

/-! Part: BCF header reader (internal/bcf/bcf.go) -/

/-- Go `strings.Index(hay, needle)`: the first index at which `needle` occurs in
`hay`, or `none` (Go: -1). -/
def strIndex : List Char → List Char → Option ℕ
  | hay, needle =>
    if needle.isPrefixOf hay then some 0
    else
      match hay with
      | [] => none
      | _ :: t => (strIndex t needle).map (· + 1)

/-- Go `contigDefinesReference(contig, refName)`: find the first occurrence of
`"ID=" + refName`; if absent, false.  Otherwise read the character immediately
after the match (`contig[index+len("ID=")+len(refName)]`; `none` embeds the Go
index-out-of-range panic when the match ends the line) and require it to be
`,` or `>`. -/
def contigDefinesReference (contig refName : List Char) : Option Bool :=
  match strIndex contig (['I', 'D', '='] ++ refName) with
  | none => some false
  | some i =>
    match contig.get? (i + 3 + refName.length) with
    | none => none
    | some ch => some (decide (ch = ',' ∨ ch = '>'))

/-- Go `strconv.Atoi` on the collected bytes.  Modelled from the Go standard
library documentation: an optional sign followed by at least one decimal digit;
anything else is an error. -/
def parseAtoi (s : List Char) : Option ℤ :=
  let digits := fun (l : List Char) =>
    if l = [] ∨ ¬ l.all Char.isDigit then (none : Option ℕ)
    else some (l.foldl (fun n c => n * 10 + (c.toNat - 48)) 0)
  match s with
  | '+' :: rest => (digits rest).map fun n => (n : ℤ)
  | '-' :: rest => (digits rest).map fun n => -(n : ℤ)
  | _ => (digits s).map fun n => (n : ℤ)

/-- Go `getIdx(contig)`: find `IDX=`, collect the following characters up to `,`
or `>`, and parse them; `-1` when `IDX=` is absent. -/
def getIdx (contig : List Char) : Except Unit ℤ :=
  match strIndex contig ['I', 'D', 'X', '='] with
  | none => .ok (-1)
  | some i =>
    let buff := (contig.drop (i + 4)).takeWhile fun ch => ¬ (ch = ',' ∨ ch = '>')
    match parseAtoi buff with
    | none => .error ()
    | some v => .ok v

/-- The header-line scanning loop of `bcf.GetReferenceID` (the gzip layer, the
magic check and the length-limited line splitting are abstracted to the `lines`
input).  `id` is the running contig counter and `contigsFound` the flag; the
outer `Option` embeds the panic that `contigDefinesReference` can raise, the
inner `Except` the error returns (`reference name not found`, `getting idx`,
`region id not found`). -/
def getRefIDLoop (refName : List Char) : List (List Char) → ℤ → Bool → Option (Except Unit ℤ)
  | [], _, _ => some (.error ())
  | line :: rest, id, contigsFound =>
    if ['#', '#', 'c', 'o', 'n', 't', 'i', 'g'].isPrefixOf line then
      match contigDefinesReference line refName with
      | none => none
      | some true =>
        match getIdx line with
        | .error _ => some (.error ())
        | .ok idx => some (.ok (if -1 < idx then idx else id))
      | some false => getRefIDLoop refName rest (id + 1) true
    else if contigsFound then some (.error ())
    else getRefIDLoop refName rest id contigsFound

/-! Part: BGZF block decoding (bgzf.DecodeBlock)

The gzip member header parsing performed by `gzip.NewReader` lives in the Go
standard library, outside this repository; it is modelled from RFC 1952 (magic
`1f 8b`, method 8, then the optional EXTRA / NAME / COMMENT / HCRC fields
selected by the FLG byte).  Decompression itself is left as a parameter, since
every claim settled below is decided before it is consulted. -/

/-- Skip a zero-terminated field (FNAME / FCOMMENT). -/
def skipZeroTerminated : List ℕ → Except Unit (List ℕ)
  | [] => .error ()
  | b :: rest => if b = 0 then .ok rest else skipZeroTerminated rest

/-- Read the FEXTRA field (two length bytes, little endian, then that many
bytes) when the flag bit is set. -/
def readExtraField (flg : ℕ) (rest : List ℕ) : Except Unit (Option (List ℕ) × List ℕ) :=
  if flg / 4 % 2 = 1 then
    match rest with
    | x0 :: x1 :: rest2 =>
      let xlen := x0 + x1 * 256
      if rest2.length < xlen then .error ()
      else .ok (some (rest2.take xlen), rest2.drop xlen)
    | _ => .error ()
  else .ok (none, rest)

/-- Skip a zero-terminated field when the corresponding flag bit is set. -/
def skipFlagged (bit : ℕ) (l : List ℕ) : Except Unit (List ℕ) :=
  if bit = 1 then skipZeroTerminated l else .ok l

/-- Skip the two FHCRC digest bytes when the flag bit is set. -/
def skipHeaderCRC (bit : ℕ) (l : List ℕ) : Except Unit (List ℕ) :=
  if bit = 1 then
    match l with
    | _ :: _ :: r => .ok r
    | _ => .error ()
  else .ok l

/-- Parse a gzip member header, returning the contents of the EXTRA field when
the FEXTRA flag is set (Go: `gzr.Header.Extra`, `nil` otherwise) and the
remaining stream. -/
def readGzipExtra (input : List ℕ) : Except Unit (Option (List ℕ) × List ℕ) :=
  match input with
  | b0 :: b1 :: b2 :: flg :: _ :: _ :: _ :: _ :: _ :: _ :: rest =>
    if b0 ≠ 0x1f ∨ b1 ≠ 0x8b ∨ b2 ≠ 8 then .error ()
    else
      (readExtraField flg rest).bind fun st =>
        (skipFlagged (flg / 8 % 2) st.2).bind fun r2 =>
          (skipFlagged (flg / 16 % 2) r2).bind fun r3 =>
            (skipHeaderCRC (flg / 2 % 2) r3).map fun r4 => (st.1, r4)
  | _ => .error ()

/-- The visible outcomes of `bgzf.DecodeBlock`: a normal return, an error
return, or a Go runtime panic (index out of range on the extra field). -/
inductive DecodeOutcome where
  | ok (payload : List ℕ) (length : ℕ)
  | fail
  | crash
  deriving DecidableEq, Repr

/-- Go `bgzf.DecodeBlock`, parameterized by the decompressor `inflate`.  After
`gzip.NewReader` succeeds it works on `extra := gzr.Header.Extra` with no
length checks, and every out-of-bounds access is a Go runtime panic, embedded
as `.crash`:

* an index `extra[i]` panics when `i ≥ len(extra)` (so it panics immediately
  on an absent, hence `nil`, extra field);
* the two error branches evaluate `extra[0:2]` resp. `extra[2:4]` inside
  `fmt.Errorf`, and such a slice expression panics when its upper bound
  exceeds the capacity — `gzip.Reader` allocates `Extra` with
  `make([]byte, xlen)`, so the capacity equals the length.  Hence the
  "unexpected extra ID" error is only *returned* when `len(extra) ≥ 2`, and
  the "unexpected extra length" error only when `len(extra) ≥ 4`; a 1-byte
  extra failing the BC check, or a 3-byte extra failing the length check,
  crashes inside the error branch instead.

The `||` of the Go conditions short-circuits, so `extra[1]` (resp. `extra[3]`)
is only evaluated when the preceding byte matched.  The returned length,
computed after decompression, indexes `extra[4]` and `extra[5]` and is
`(uint16(extra[4]) | uint16(extra[5])<<8) + 1` in 16-bit arithmetic. -/
def decodeBlock (inflate : List ℕ → Except Unit (List ℕ)) (input : List ℕ) : DecodeOutcome :=
  match readGzipExtra input with
  | .error _ => .fail
  | .ok (extraOpt, rest) =>
    let extra := extraOpt.getD []
    if extra.length < 1 then .crash
    else if extra.getD 0 0 ≠ 0x42 then
      (if extra.length < 2 then .crash else .fail)
    else if extra.length < 2 then .crash
    else if extra.getD 1 0 ≠ 0x43 then .fail
    else if extra.length < 3 then .crash
    else if extra.getD 2 0 ≠ 2 then
      (if extra.length < 4 then .crash else .fail)
    else if extra.length < 4 then .crash
    else if extra.getD 3 0 ≠ 0 then .fail
    else
      match inflate rest with
      | .error _ => .fail
      | .ok payload =>
        if extra.length < 6 then .crash
        else .ok payload ((extra.getD 4 0 + extra.getD 5 0 * 256 + 1) % 2 ^ 16)

/-- An arbitrary instantiation of the decompressor parameter, used to state
closed evaluations of `decodeBlock`; every such evaluation below is decided
before decompression is reached. -/
def inflateNever : List ℕ → Except Unit (List ℕ) := fun _ => .error ()

/-- A 10-byte gzip member header with no optional fields (FLG = 0): accepted by
`gzip.NewReader` with `Header.Extra == nil`. -/
def gzipNoExtraHeader : List ℕ := [0x1f, 0x8b, 8, 0, 0, 0, 0, 0, 0, 0xff]

/-! Part: BGZF block encoding (bgzf.EncodeBlock)

`EncodeBlock` writes through `gzip.NewWriter`, which lives in the Go standard
library: header fields mtime = 0, XFL = 0 (default compression), OS = 255, the
FEXTRA flag, and the 6-byte extra field set by `EncodeBlock` itself.  The
DEFLATE body is modelled as stored blocks; for the empty payload Go's writer
flushes the empty stream as the single final stored block `01 00 00 ff ff`,
exactly the bytes pinned by `TestEncodeBlock_ValidInputs` in
`bgzf/bgzf_test.go`, and only the empty payload is relied on below. -/

/-- Two little-endian bytes. -/
def le16 (n : ℕ) : List ℕ := [n % 256, n / 256 % 256]

/-- Four little-endian bytes. -/
def le32 (n : ℕ) : List ℕ := [n % 256, n / 256 % 256, n / 2 ^ 16 % 256, n / 2 ^ 24 % 256]

/-- One step of CRC-32 (IEEE polynomial, reflected). -/
def crc32Bit (c : ℕ) : ℕ := if c % 2 = 1 then (c / 2) ^^^ 0xEDB88320 else c / 2

/-- Fold one byte into a CRC-32 state. -/
def crc32Byte (crc b : ℕ) : ℕ := crc32Bit^[8] (crc ^^^ b % 256)

/-- CRC-32 (IEEE) of a byte list. -/
def crc32 (data : List ℕ) : ℕ := data.foldl crc32Byte 0xFFFFFFFF ^^^ 0xFFFFFFFF

/-- Fuel-driven emission of stored DEFLATE blocks of at most 65535 bytes; the
final block carries the BFINAL bit. -/
def storedBlocksGo : ℕ → List ℕ → List ℕ
  | 0, _ => []
  | fuel + 1, data =>
    let n := min data.length 65535
    (if data.length ≤ 65535 then [1] else [0]) ++ le16 n ++ le16 (65535 - n) ++ data.take n
      ++ (if data.length ≤ 65535 then [] else storedBlocksGo fuel (data.drop n))

/-- The DEFLATE body as stored (uncompressed) blocks; the empty payload yields
the single final stored block `01 00 00 ff ff`. -/
def storedBlocks (data : List ℕ) : List ℕ := storedBlocksGo (data.length + 1) data

/-- The full gzip stream `gzip.NewWriter` produces inside `EncodeBlock` before
the BSIZE patch: header, extra field `42 43 02 00 88 88`, DEFLATE body, CRC-32
and ISIZE. -/
def gzipBytes (data : List ℕ) : List ℕ :=
  [0x1f, 0x8b, 8, 4] ++ le32 0 ++ [0, 0xff] ++ le16 6 ++ [0x42, 0x43, 2, 0, 0x88, 0x88]
    ++ storedBlocks data ++ le32 (crc32 data) ++ le32 (data.length % 2 ^ 32)

/-- Go `bgzf.EncodeBlock`: fail on payloads over `MaximumBlockSize`, otherwise
compress and patch bytes 16 and 17 with `BSIZE = total length - 1`. -/
def encodeBlock (data : List ℕ) : Option (List ℕ) :=
  if maximumBlockSize < data.length then none
  else
    let encoded := gzipBytes data
    let bsize := encoded.length - 1
    some ((encoded.set 16 (bsize % 256)).set 17 (bsize / 256 % 256))

/-- The canonical 28-byte BGZF EOF marker, as fixed by the BAM specification and
encoded in `eofMarkerDataURL` in `sam/sam.go`. -/
def canonicalEOFMarker : List ℕ :=
  [0x1f, 0x8b, 0x08, 0x04, 0x00, 0x00, 0x00, 0x00, 0x00, 0xff, 0x06, 0x00, 0x42, 0x43,
    0x02, 0x00, 0x1b, 0x00, 0x03, 0x00, 0x00, 0x00, 0x00, 0x00, 0x00, 0x00, 0x00, 0x00]

/-! Part: Block reassembler (blockRequest.handle in the api package, and
block.ReadBlock in block/block.go)

Both reassemblers are embedded at the plan level: the byte contents flowing
through `DecodeBlock` / `EncodeBlock` are opaque, and each emitted output piece
records which byte range is range-read from the object store and how the
decoded payload is sliced before re-encoding.  `blockLen` supplies the
compressed length that `DecodeBlock` reports for the block starting at a given
byte offset (the only data-dependent value the control flow consumes). -/

/-- One piece of reassembler output: either a block re-encoded from the decode
of a ranged read (`sliceLo`/`sliceHi` give the payload slice bounds, `none`
meaning "to the end"), or bytes streamed verbatim. -/
inductive Piece where
  | reencoded (readOfs readLen sliceLo : ℕ) (sliceHi : Option ℕ)
  | verbatim (readOfs readLen : ℕ)
  deriving DecidableEq, Repr

/-- Go `blockRequest.handle`: single-block case, then prefix block (ranged read of
`MaximumBlockSize` at `head`, slice `[start.DataOffset():]`, and `head`
advances by the decoded block length), verbatim body `[head, tail)`, and suffix
block (ranged read of `MaximumBlockSize` at `tail`, slice
`[:end.DataOffset()]`). -/
def handlePlan (blockLen : ℕ → ℕ) (c : Chunk) : List Piece :=
  let head := blockOffset c.Start
  let tail := blockOffset c.End
  if head = tail then
    [.reencoded head maximumBlockSize (dataOffset c.Start) (some (dataOffset c.End))]
  else
    let pre : List Piece :=
      if dataOffset c.Start ≠ 0 then
        [.reencoded head maximumBlockSize (dataOffset c.Start) none]
      else []
    let head2 := if dataOffset c.Start ≠ 0 then head + blockLen head else head
    let body : List Piece := if head2 < tail then [.verbatim head2 (tail - head2)] else []
    let suf : List Piece :=
      if dataOffset c.End ≠ 0 then
        [.reencoded tail maximumBlockSize 0 (some (dataOffset c.End))]
      else []
    pre ++ body ++ suf

/-- Go `block.ReadBlock` from `block/block.go`: same single-block case, but the
multi-block case issues its ranged reads differently: the first block is read
as `file(head, tail-head)`, and the last block as `file(head, tail-head)` with
the *current* `head` (advanced past the first block when a prefix was
emitted) — not from `tail`. -/
def readBlockPlan (blockLen : ℕ → ℕ) (c : Chunk) : List Piece :=
  let head := blockOffset c.Start
  let tail := blockOffset c.End
  if head = tail then
    [.reencoded head maximumBlockSize (dataOffset c.Start) (some (dataOffset c.End))]
  else
    let pre : List Piece :=
      if dataOffset c.Start ≠ 0 then
        [.reencoded head (tail - head) (dataOffset c.Start) none]
      else []
    let head2 := if dataOffset c.Start ≠ 0 then head + blockLen head else head
    let body : List Piece := if head2 < tail then [.verbatim head2 (tail - head2)] else []
    let suf : List Piece :=
      if dataOffset c.End ≠ 0 then
        [.reencoded head2 (tail - head2) 0 (some (dataOffset c.End))]
      else []
    pre ++ body ++ suf

/-- A block-length oracle reporting 50 compressed bytes for every block, used
for closed evaluations of the reassembler plans. -/
def constLen50 : ℕ → ℕ := fun _ => 50

/-- A chunk whose start sits at data offset 5 of the block at byte offset 100
and whose end sits at data offset 7 of the block at byte offset 300. -/
def chunkAcross : Chunk := { Start := 100 * 2 ^ 16 + 5, End := 300 * 2 ^ 16 + 7 }

/-! Part: Concrete inputs used by the closed theorems below -/

/-- A three-chunk heap: pointer 1 holds the lowest start. -/
def heapEx : List Chunk := [⟨0x10, 0x40⟩, ⟨0, 0x10⟩, ⟨0x40, 0x80⟩]

/-- The heap after `mergeHeap heapEx [0, 1, 2] 1024`: both later chunks were
folded into the cell behind pointer 1, growing its `End` to `0x80`. -/
def heapExAfter : List Chunk := [⟨0x10, 0x40⟩, ⟨0, 0x80⟩, ⟨0x40, 0x80⟩]

/-- A parsed BAI index with one reference holding a virtual metadata bin whose
chunk starts at 5 and a regular bin whose chunk starts at 100. -/
def refsCE : List BaiReference :=
  [{ bins := [{ id := metadataID, chunks := [⟨5, 6⟩] },
              { id := 0, chunks := [⟨100, 200⟩] }], offsets := [] }]

/-- A BCF contig line in which `ID=Y` occurs only inside the field
`SOMEID=Y`. -/
def contigLineCE : List Char := "##contig=<SOMEID=Y,length=5>".toList

/-! Theorems. -/

/-- The recursive merge loop agrees with the fold over `mergeStep`. -/
theorem foldl_mergeStep_eq (limit : ℕ) :
    ∀ (rest : List Chunk) (t : Chunk) (done : List Chunk),
      (rest.foldl (mergeStep limit) (done, t)).1 ++ [(rest.foldl (mergeStep limit) (done, t)).2]
        = done ++ mergeLoop limit t rest
  | [], t, done => by simp [mergeLoop]
  | cur :: rest, t, done => by
    by_cases h : canMerge limit t cur
    · have hc : cur.Start ≤ (done, t).2.End ∧ specSize (done, t).2 cur ≤ limit := h
      simp only [List.foldl_cons, mergeStep, if_pos hc, mergeLoop, if_pos h]
      exact foldl_mergeStep_eq limit rest _ done
    · have hc : ¬ (cur.Start ≤ (done, t).2.End ∧ specSize (done, t).2 cur ≤ limit) := h
      simp only [List.foldl_cons, mergeStep, if_neg hc, mergeLoop, if_neg h]
      rw [foldl_mergeStep_eq limit rest cur (done ++ [t])]
      simp

/-- C2: `Merge` sorts by start ascending and then folds each chunk into the
running tail exactly as the spec words it (predicted size from the
data-offset difference in the same-block case, block-offset difference plus
`MAX_BLOCK_SIZE` otherwise; merge exactly when `current.start ≤ tail.end` and
the predicted size fits, extending the tail's end to the maximum); and
`Merge([(0,0x8000),(0x9000,0xa000)], 32768)` leaves both chunks unmerged. -/
theorem merge_follows_spec :
    (∀ input limit, Merge input limit = MergeSpec input limit)
      ∧ Merge [⟨0, 0x8000⟩, ⟨0x9000, 0xa000⟩] 32768
        = some [⟨0, 0x8000⟩, ⟨0x9000, 0xa000⟩] := by
  constructor
  · intro input limit
    unfold Merge MergeSpec
    cases h : sortChunks input with
    | nil => rfl
    | cons first rest =>
      have h2 := foldl_mergeStep_eq limit rest first []
      simp only [List.nil_append] at h2
      show some (mergeLoop limit first rest)
        = some ((rest.foldl (mergeStep limit) ([], first)).1
            ++ [(rest.foldl (mergeStep limit) ([], first)).2])
      rw [h2]
  · decide

/-- C6 counterexample: `EncodeBlock` of the empty payload is not the canonical
28-byte EOF marker. -/
theorem encode_empty_not_eof_marker : encodeBlock [] ≠ some canonicalEOFMarker := by decide

/-- C6 amended: `EncodeBlock` of the empty payload yields the 31-byte empty
block pinned by `TestEncodeBlock_ValidInputs` (BSIZE `0x1e`, stored-empty
DEFLATE body `01 00 00 ff ff`), not the 28-byte canonical EOF marker. -/
theorem encode_empty_pinned_bytes :
    encodeBlock []
      = some [0x1f, 0x8b, 0x08, 0x04, 0x00, 0x00, 0x00, 0x00, 0x00, 0xff, 0x06, 0x00, 0x42,
        0x43, 0x02, 0x00, 0x1e, 0x00, 0x01, 0x00, 0x00, 0xff, 0xff, 0x00, 0x00, 0x00, 0x00,
        0x00, 0x00, 0x00, 0x00] := by decide

/-- C7 counterexample: on a valid gzip member header without the FEXTRA field,
`DecodeBlock` panics (indexes into the nil `Header.Extra`) instead of
returning a malformed-block error. -/
theorem decode_missing_extra_crashes :
    decodeBlock inflateNever gzipNoExtraHeader = .crash := by decide

/-- C8 counterexample: scanning the contig line `##contig=<SOMEID=Y,...>` for
reference name `Y` resolves to contig id 0, because `contigDefinesReference`
accepts the occurrence of `ID=Y` inside `SOMEID=Y`. -/
theorem contig_someid_resolves :
    getRefIDLoop ['Y'] [contigLineCE] 0 false = some (.ok 0) := by rfl

/-- C1: at a chunk spanning blocks 100..300 with nonzero end data offset,
`blockRequest.handle` reassembles the suffix by range-reading
`MaximumBlockSize` bytes at the tail block offset 300, while `block.ReadBlock`
instead range-reads `tail - head = 150` bytes at the advanced head offset 150,
decoding the wrong block. -/
theorem readBlock_suffix_divergence :
    handlePlan constLen50 chunkAcross
        = [.reencoded 100 65536 5 none, .verbatim 150 150,
            .reencoded 300 65536 0 (some 7)]
      ∧ readBlockPlan constLen50 chunkAcross
        = [.reencoded 100 200 5 none, .verbatim 150 150,
            .reencoded 150 150 0 (some 7)] :=
  ⟨by decide, by decide⟩

/-- For every chunk spanning distinct blocks whose end data offset is nonzero,
the plan of `blockRequest.handle` ends with the suffix piece: a ranged read of
`MaximumBlockSize` bytes at the end's block offset, re-encoded truncated to
`payload[..end.data_offset]`, after the verbatim body bytes. -/
theorem handlePlan_suffix (blockLen : ℕ → ℕ) (c : Chunk)
    (hb : blockOffset c.Start ≠ blockOffset c.End) (hd : dataOffset c.End ≠ 0) :
    (handlePlan blockLen c).getLast?
      = some (.reencoded (blockOffset c.End) maximumBlockSize 0 (some (dataOffset c.End))) := by
  unfold handlePlan
  rw [if_neg hb]
  simp only [hd, if_pos, ne_eq, not_false_eq_true, List.append_assoc]
  rw [List.getLast?_append, List.getLast?_append]
  simp

/-- C10: `Merge` works in place: sorting reorders the input pointer slice, the
returned pointers alias input elements, and merging overwrites the `End` field
of the chunk object behind pointer 1, which grows from `0x10` to `0x80`. -/
theorem merge_mutates_input :
    sortPtrs heapEx [0, 1, 2] ≠ [0, 1, 2]
      ∧ mergeHeap heapEx [0, 1, 2] 1024 = some ([1], heapExAfter)
      ∧ (heapEx.getD 1 default).End < (heapExAfter.getD 1 default).End := by
  refine ⟨by decide, by decide, by decide⟩

/-- C9: `Merge` panics on the empty chunk list (embedded as `none`), succeeds
on every non-empty list, and every index produced by the BAI reader is
non-empty (it always carries the synthesized header chunk first). -/
theorem merge_empty_panics :
    (∀ L, Merge [] L = none)
      ∧ (∀ L x xs, (Merge (x :: xs) L).isSome)
      ∧ (∀ refs region, bamRead refs region ≠ []) := by
  refine ⟨fun _ => rfl, ?_, ?_⟩
  · intro L x xs
    unfold Merge
    cases hs : sortChunks (x :: xs) with
    | nil =>
      unfold sortChunks at hs
      have hp := (List.perm_insertionSort startLE (x :: xs)).symm
      rw [hs] at hp
      exact absurd hp.eq_nil (List.cons_ne_nil x xs)
    | cons a l => simp
  · intro refs region
    simp [bamRead]

/-- C5: the edge policy of `binsForRange`: a zero or over-wide `end` is clamped
to the maximum bin width and the result coincides with the clamped call; the
result is empty exactly when the clamped `end` does not exceed `start` or
`start` lies beyond the maximum width; and
`BinsForRange(0, 1, 14, 5) = [0, 1, 9, 73, 585, 4681]`. -/
theorem binsForRange_edge_policy :
    (∀ s e ms d, (e = 0 ∨ maximumBinWidth ms d < e) →
        binsForRange s e ms d = binsForRange s (maximumBinWidth ms d) ms d)
      ∧ (∀ s e ms d,
          binsForRange s e ms d = []
            ↔ ((if e = 0 ∨ maximumBinWidth ms d < e then maximumBinWidth ms d else e) ≤ s
                ∨ maximumBinWidth ms d < s))
      ∧ binsForRange 0 1 14 5 = [0, 1, 9, 73, 585, 4681] := by
  refine ⟨?_, ?_, by decide⟩
  · intro s e ms d h
    simp only [binsForRange]
    rw [if_pos h, ite_self]
  · intro s e ms d
    simp only [binsForRange]
    by_cases h1 : (if e = 0 ∨ maximumBinWidth ms d < e then maximumBinWidth ms d else e) ≤ s
    · rw [if_pos h1]
      simp [h1]
    · rw [if_neg h1]
      by_cases h2 : maximumBinWidth ms d < s
      · rw [if_pos h2]
        simp [h2]
      · rw [if_neg h2]
        simp only [h1, h2, or_self, iff_false]
        unfold binsLevels
        apply List.append_ne_nil_of_left_ne_nil
        simp only [ne_eq, List.map_eq_nil_iff, binRange]
        have hle : s >>> (ms + d * 3)
            ≤ ((if e = 0 ∨ maximumBinWidth ms d < e then maximumBinWidth ms d else e) - 1)
              >>> (ms + d * 3) := by
          simp only [Nat.shiftRight_eq_div_pow]
          exact Nat.div_le_div_right (by omega)
        rw [if_pos (by omega)]
        intro hnil
        have hlen := congrArg List.length hnil
        simp only [List.length_range', List.length_nil] at hlen
        omega

/-- Witness for the C5 theorem: the clamping branch applied at `end = 0`. -/
theorem binsForRange_edge_policy_witness :
    binsForRange 7 0 14 5 = binsForRange 7 (maximumBinWidth 14 5) 14 5 :=
  binsForRange_edge_policy.1 7 0 14 5 (Or.inl rfl)

/-- The header-end component of the per-bin chunk fold is the minimum of the
incoming value and the chunk starts, except for the virtual metadata bin. -/
theorem processBin_fst (region : Region) (refID : ℤ) (bins : List ℕ) :
    ∀ (chunks : List Chunk) (st : ℕ × List Chunk) (binId : ℕ),
      (processBin region refID bins st ⟨binId, chunks⟩).1
        = if binId = metadataID then st.1
          else (chunks.map Chunk.Start).foldl min st.1
  | [], st, binId => by simp [processBin]
  | c :: cs, st, binId => by
    by_cases h : binId = metadataID
    · have ih := processBin_fst region refID bins cs
        (if binId = metadataID then st
          else ((if c.Start < st.1 then c.Start else st.1),
            if regionContainsBin region refID binId bins then st.2 ++ [c] else st.2)) binId
      simp only [processBin, List.foldl_cons] at ih ⊢
      rw [ih, if_pos h, if_pos h, if_pos h]
    · have ih := processBin_fst region refID bins cs
        (if binId = metadataID then st
          else ((if c.Start < st.1 then c.Start else st.1),
            if regionContainsBin region refID binId bins then st.2 ++ [c] else st.2)) binId
      simp only [processBin, List.foldl_cons] at ih ⊢
      rw [ih, if_neg h, if_neg h, if_neg h]
      have hmin : (if c.Start < st.1 then c.Start else st.1) = min st.1 c.Start := by
        rw [Nat.min_def]
        split_ifs
        all_goals omega
      rw [hmin]
      simp

/-- The header-end component of the per-reference bin fold is the minimum of
the incoming value and all non-virtual chunk starts of those bins. -/
theorem binsFold_fst (region : Region) (refID : ℤ) (bins : List ℕ) :
    ∀ (bs : List BaiBin) (st : ℕ × List Chunk),
      ((bs.foldl (processBin region refID bins) st).1
        = ((bs.filter (fun b => b.id ≠ metadataID)).flatMap
            (fun b => b.chunks.map Chunk.Start)).foldl min st.1)
  | [], st => rfl
  | b :: bs, st => by
    have ih := binsFold_fst region refID bins bs (processBin region refID bins st b)
    simp only [List.foldl_cons]
    rw [ih]
    by_cases h : b.id = metadataID
    · have hb : (processBin region refID bins st b).1 = st.1 := by
        have h2 := processBin_fst region refID bins b.chunks st b.id
        rw [if_pos h] at h2
        exact h2
      rw [List.filter_cons_of_neg (by simp [h])]
      rw [hb]
    · have hb : (processBin region refID bins st b).1
          = (b.chunks.map Chunk.Start).foldl min st.1 := by
        have h2 := processBin_fst region refID bins b.chunks st b.id
        rw [if_neg h] at h2
        exact h2
      rw [List.filter_cons_of_pos (by simp [h])]
      simp only [List.flatMap_cons, List.foldl_append, hb]

/-- The header-end component of `processReference`. -/
theorem processReference_fst (region : Region) (bins : List ℕ) (st : ℕ × List Chunk)
    (p : ℕ × BaiReference) :
    (processReference region bins st p).1 = (refNonVirtualStarts p.2).foldl min st.1 := by
  unfold processReference refNonVirtualStarts
  exact binsFold_fst region (p.1 : ℤ) bins p.2.bins (st.1, [])

/-- The header-end component of the fold over all references. -/
theorem refsFold_fst (region : Region) (bins : List ℕ) :
    ∀ (ps : List (ℕ × BaiReference)) (st : ℕ × List Chunk),
      ((ps.foldl (processReference region bins) st).1
        = (ps.flatMap (fun p => refNonVirtualStarts p.2)).foldl min st.1)
  | [], st => rfl
  | p :: ps, st => by
    have ih := refsFold_fst region bins ps (processReference region bins st p)
    simp only [List.foldl_cons, List.flatMap_cons, List.foldl_append]
    rw [ih, processReference_fst]

/-- C4 amended: the first chunk returned by the BAI reader is always the header
chunk, whose start is 0 and whose end is `LastAddress` lowered to the minimum
start over the chunks of every non-virtual bin across all references (chunks
of the virtual metadata bin are skipped before the header is tightened). -/
theorem bamRead_header (refs : List BaiReference) (region : Region) :
    (bamRead refs region).head?
      = some ⟨0, (nonVirtualChunkStarts refs).foldl min lastAddress⟩ := by
  unfold bamRead
  simp only [List.head?_cons, Option.some.injEq]
  have h := refsFold_fst region (binsForRangeBAI region.Start region.End) refs.enum
    (lastAddress, [])
  have henum : refs.enum.flatMap (fun p => refNonVirtualStarts p.2)
      = nonVirtualChunkStarts refs := by
    unfold nonVirtualChunkStarts
    calc refs.enum.flatMap (fun p => refNonVirtualStarts p.2)
        = (refs.enum.map Prod.snd).flatMap refNonVirtualStarts := by
          rw [List.flatMap_map]
      _ = refs.flatMap refNonVirtualStarts := by rw [List.enum_map_snd]
  rw [henum] at h
  rw [h]

/-- The merge size estimate is monotone in the end address of the current
chunk, on the region where the end does not precede the tail's start. -/
theorem mergeSize_mono (t c d : Chunk) (h1 : t.Start ≤ c.End) (h2 : c.End ≤ d.End)
    (h3 : d.End < 2 ^ 64) : mergeSize t c ≤ mergeSize t d := by
  unfold mergeSize blockOffset dataOffset maximumBlockSize
  have e16 : (2 : ℕ) ^ 16 = 65536 := by norm_num
  have e64 : (2 : ℕ) ^ 64 = 18446744073709551616 := by norm_num
  simp only [e16, e64] at h3 ⊢
  split_ifs with ha hb hb
  all_goals omega

/-- Every chunk the merge loop emits takes its start and its end from chunks of
the input. -/
theorem mergeLoop_mem_bounds (limit : ℕ) :
    ∀ (rest : List Chunk) (t : Chunk), ∀ c ∈ mergeLoop limit t rest,
      c.Start ∈ (t :: rest).map Chunk.Start ∧ c.End ∈ (t :: rest).map Chunk.End
  | [], t, c, h => by
    simp only [mergeLoop, List.mem_singleton] at h
    subst h
    simp
  | cur :: rest, t, c, h => by
    by_cases hm : canMerge limit t cur
    · rw [mergeLoop, if_pos hm] at h
      obtain ⟨h1, h2⟩ := mergeLoop_mem_bounds limit rest _ c h
      simp only [List.map_cons, List.mem_cons] at h1 h2 ⊢
      constructor
      · tauto
      · rcases h2 with h2 | h2
        · rcases max_choice t.End cur.End with hx | hx
          · left
            rw [h2, hx]
          · right
            left
            rw [h2, hx]
        · tauto
    · rw [mergeLoop, if_neg hm] at h
      rcases List.mem_cons.mp h with rfl | h
      · simp
      · obtain ⟨h1, h2⟩ := mergeLoop_mem_bounds limit rest cur c h
        simp only [List.map_cons, List.mem_cons] at h1 h2 ⊢
        tauto

/-- Extending the running tail's end preserves sortedness of the remaining
input. -/
theorem sorted_extend (t cur : Chunk) (rest : List Chunk)
    (hs : List.Sorted startLE (t :: cur :: rest)) :
    List.Sorted startLE ({ t with End := max t.End cur.End } :: rest) := by
  rw [List.sorted_cons] at hs ⊢
  exact ⟨fun b hb => hs.1 b (List.mem_cons_of_mem cur hb), (List.sorted_cons.mp hs.2).2⟩

/-- The merge loop returns a list headed by the running tail's start, with an
end that only grew; and it can only have grown when the tail was overlapped,
which forces `Start ≤ End` on the tail. -/
theorem mergeLoop_head (limit : ℕ) :
    ∀ (rest : List Chunk) (t : Chunk), List.Sorted startLE (t :: rest) →
      ∃ e tl, mergeLoop limit t rest = { Start := t.Start, End := e } :: tl
        ∧ t.End ≤ e ∧ (e = t.End ∨ t.Start ≤ t.End) ∧ e ∈ (t :: rest).map Chunk.End
  | [], t, _ => ⟨t.End, [], rfl, le_refl _, Or.inl rfl, by simp⟩
  | cur :: rest, t, hs => by
    by_cases hm : canMerge limit t cur
    · obtain ⟨e, tl, heq, hle, hd, hmem⟩ :=
        mergeLoop_head limit rest _ (sorted_extend t cur rest hs)
      refine ⟨e, tl, ?_, le_trans (le_max_left _ _) hle, ?_, ?_⟩
      · rw [mergeLoop, if_pos hm]
        exact heq
      · right
        have h1 : t.Start ≤ cur.Start := (List.sorted_cons.mp hs).1 cur (by simp)
        exact le_trans h1 hm.1
      · simp only [List.map_cons, List.mem_cons] at hmem ⊢
        rcases hmem with he | he
        · rcases max_choice t.End cur.End with hx | hx
          · left
            rw [he]
            exact hx
          · right
            left
            rw [he]
            exact hx
        · tauto
    · refine ⟨t.End, mergeLoop limit cur rest, ?_, le_refl _, Or.inl rfl, by simp⟩
      rw [mergeLoop, if_neg hm]

/-- The merge loop preserves sortedness by start. -/
theorem mergeLoop_sorted (limit : ℕ) :
    ∀ (rest : List Chunk) (t : Chunk), List.Sorted startLE (t :: rest) →
      List.Sorted startLE (mergeLoop limit t rest)
  | [], t, _ => by simp [mergeLoop]
  | cur :: rest, t, hs => by
    by_cases hm : canMerge limit t cur
    · rw [mergeLoop, if_pos hm]
      exact mergeLoop_sorted limit rest _ (sorted_extend t cur rest hs)
    · rw [mergeLoop, if_neg hm]
      rw [List.sorted_cons]
      refine ⟨?_, mergeLoop_sorted limit rest cur (List.sorted_cons.mp hs).2⟩
      intro b hb
      obtain ⟨hbs, _⟩ := mergeLoop_mem_bounds limit rest cur b hb
      have hall := (List.sorted_cons.mp hs).1
      simp only [List.map_cons, List.mem_cons] at hbs
      rcases hbs with h | h
      · show t.Start ≤ b.Start
        rw [h]
        exact hall cur (by simp)
      · obtain ⟨w, hw, hws⟩ := List.mem_map.mp h
        show t.Start ≤ b.Start
        rw [← hws]
        exact hall w (by simp [hw])

/-- No two consecutive chunks of the merge loop's output satisfy the merge
condition: a rejected chunk stays rejected even after its end grows, by
monotonicity of the size estimate. -/
theorem mergeLoop_chain (limit : ℕ) :
    ∀ (rest : List Chunk) (t : Chunk), List.Sorted startLE (t :: rest) →
      (∀ c ∈ t :: rest, c.Wf) →
      List.Chain' (fun a b => ¬ canMerge limit a b) (mergeLoop limit t rest)
  | [], t, _, _ => by simp [mergeLoop]
  | cur :: rest, t, hs, hwf => by
    by_cases hm : canMerge limit t cur
    · rw [mergeLoop, if_pos hm]
      apply mergeLoop_chain limit rest _ (sorted_extend t cur rest hs)
      intro c hc
      rcases List.mem_cons.mp hc with rfl | hc
      · exact ⟨(hwf t (by simp)).1, max_lt (hwf t (by simp)).2 (hwf cur (by simp)).2⟩
      · exact hwf c (by simp [hc])
    · rw [mergeLoop, if_neg hm]
      have hs2 : List.Sorted startLE (cur :: rest) := (List.sorted_cons.mp hs).2
      have hwf2 : ∀ c ∈ cur :: rest, c.Wf := fun c hc => hwf c (List.mem_cons_of_mem t hc)
      have hchain := mergeLoop_chain limit rest cur hs2 hwf2
      obtain ⟨e, tl, heq, hle, hd, hmem⟩ := mergeLoop_head limit rest cur hs2
      rw [heq]
      rw [heq] at hchain
      refine List.Chain'.cons ?_ hchain
      rintro ⟨hc1, hc2⟩
      rcases not_and_or.mp hm with hm1 | hm2
      · exact hm1 hc1
      · push_neg at hm2
        rcases hd with hd | hd
        · rw [hd] at hc2
          exact absurd hc2 (not_le.mpr hm2)
        · have hts : t.Start ≤ cur.Start := (List.sorted_cons.mp hs).1 cur (by simp)
          have h1 : t.Start ≤ cur.End := le_trans hts hd
          have he64 : e < 2 ^ 64 := by
            simp only [List.map_cons, List.mem_cons] at hmem
            rcases hmem with h | h
            · rw [h]
              exact (hwf2 cur (by simp)).2
            · obtain ⟨w, hw, hwe⟩ := List.mem_map.mp h
              rw [← hwe]
              exact (hwf2 w (by simp [hw])).2
          have hmono := mergeSize_mono t cur { Start := cur.Start, End := e } h1 hle he64
          exact absurd hc2 (not_le.mpr (lt_of_lt_of_le hm2 hmono))

/-- On a list whose consecutive chunks all fail the merge condition, the merge
loop is the identity. -/
theorem mergeLoop_of_chain (limit : ℕ) :
    ∀ (rest : List Chunk) (t : Chunk),
      List.Chain' (fun a b => ¬ canMerge limit a b) (t :: rest) →
      mergeLoop limit t rest = t :: rest
  | [], _, _ => rfl
  | cur :: rest, t, h => by
    rw [mergeLoop, if_neg (List.chain'_cons.mp h).1,
      mergeLoop_of_chain limit rest cur (List.chain'_cons.mp h).2]

/-- C3: for chunk lists of `uint64` addresses, the output of `Merge` is sorted
by start, and `Merge` is idempotent: merging the output again under the same
limit returns it unchanged. -/
theorem merge_idempotent_and_sorted (xs : List Chunk) (L : ℕ) (ys : List Chunk)
    (hwf : ∀ c ∈ xs, c.Wf) (h : Merge xs L = some ys) :
    Merge ys L = some ys ∧ List.Sorted startLE ys := by
  unfold Merge at h
  cases hs : sortChunks xs with
  | nil =>
    rw [hs] at h
    exact absurd h (by simp)
  | cons first rest =>
    rw [hs] at h
    have h2 : some (mergeLoop L first rest) = some ys := h
    obtain rfl := (Option.some.inj h2).symm
    have hsorted0 : List.Sorted startLE (first :: rest) := by
      rw [← hs]
      exact List.sorted_insertionSort startLE xs
    have hwf0 : ∀ c ∈ first :: rest, c.Wf := by
      intro c hc
      apply hwf
      have : c ∈ sortChunks xs := hs ▸ hc
      exact (List.mem_insertionSort startLE).mp this
    have hsorted := mergeLoop_sorted L rest first hsorted0
    refine ⟨?_, hsorted⟩
    have hchain := mergeLoop_chain L rest first hsorted0 hwf0
    obtain ⟨e, tl, hshape, _, _, _⟩ := mergeLoop_head L rest first hsorted0
    unfold Merge
    have hsid : sortChunks (mergeLoop L first rest) = mergeLoop L first rest := by
      unfold sortChunks
      exact List.Sorted.insertionSort_eq hsorted
    rw [hsid, hshape]
    rw [hshape] at hchain
    show some (mergeLoop L { Start := first.Start, End := e } tl)
      = some ({ Start := first.Start, End := e } :: tl)
    rw [mergeLoop_of_chain L tl _ hchain]

/-- Witness for the C3 theorem at a concrete one-chunk list. -/
theorem merge_idempotent_witness :
    Merge [⟨0, 16⟩] 5 = some [⟨0, 16⟩] ∧ List.Sorted startLE [⟨0, 16⟩] :=
  merge_idempotent_and_sorted [⟨0, 16⟩] 5 [⟨0, 16⟩] (by decide) (by decide)

set_option maxHeartbeats 1600000 in
/-- C7 amended: `DecodeBlock` returns the payload with the block length, fails
with a malformed-block error, or panics.  The malformed-extra errors are
returned only when the bytes the error message slices exist: a wrong BC
identifier with at least two extra bytes, or a wrong declared extra length
with at least four.  An absent extra field, a one-byte extra field, or a two-
or three-byte extra field whose BC identifier matched, all panic (index or
slice out of bounds) instead; with a six-byte well-shaped prefix and
successful decompression the payload and `BSIZE + 1` are returned. -/
theorem decode_extra_outcomes :
    (∀ inflate input rest, readGzipExtra input = .ok (none, rest) →
        decodeBlock inflate input = .crash)
      ∧ (∀ inflate input extra rest, readGzipExtra input = .ok (some extra, rest) →
          extra.length = 1 → decodeBlock inflate input = .crash)
      ∧ (∀ inflate input extra rest, readGzipExtra input = .ok (some extra, rest) →
          2 ≤ extra.length → (extra.getD 0 0 ≠ 0x42 ∨ extra.getD 1 0 ≠ 0x43) →
          decodeBlock inflate input = .fail)
      ∧ (∀ inflate input extra rest, readGzipExtra input = .ok (some extra, rest) →
          extra.getD 0 0 = 0x42 → extra.getD 1 0 = 0x43 →
          (extra.length = 2 ∨ extra.length = 3) →
          decodeBlock inflate input = .crash)
      ∧ (∀ inflate input extra rest, readGzipExtra input = .ok (some extra, rest) →
          extra.getD 0 0 = 0x42 → extra.getD 1 0 = 0x43 → 4 ≤ extra.length →
          (extra.getD 2 0 ≠ 2 ∨ extra.getD 3 0 ≠ 0) →
          decodeBlock inflate input = .fail)
      ∧ (∀ inflate input extra rest payload, readGzipExtra input = .ok (some extra, rest) →
          extra.getD 0 0 = 0x42 → extra.getD 1 0 = 0x43 → extra.getD 2 0 = 2 →
          extra.getD 3 0 = 0 → 6 ≤ extra.length → inflate rest = .ok payload →
          decodeBlock inflate input
            = .ok payload ((extra.getD 4 0 + extra.getD 5 0 * 256 + 1) % 2 ^ 16)) := by
  refine ⟨?_, ?_, ?_, ?_, ?_, ?_⟩
  · intro inflate input rest h
    simp [decodeBlock, h]
  · intro inflate input extra rest h hlen
    simp only [decodeBlock, h, Option.getD_some]
    split_ifs
    all_goals first | rfl | omega
  · intro inflate input extra rest h hlen hor
    simp only [decodeBlock, h, Option.getD_some]
    split_ifs
    all_goals first | rfl | omega
  · intro inflate input extra rest h he0 he1 hlen
    simp only [decodeBlock, h, Option.getD_some]
    split_ifs
    all_goals first | rfl | omega
  · intro inflate input extra rest h he0 he1 hlen hor
    simp only [decodeBlock, h, Option.getD_some]
    split_ifs
    all_goals first | rfl | omega
  · intro inflate input extra rest payload h he0 he1 he2 he3 hlen hinf
    simp only [decodeBlock, h, Option.getD_some]
    rw [if_neg (by omega), if_neg (by simpa using he0), if_neg (by omega),
      if_neg (by simpa using he1), if_neg (by omega), if_neg (by simpa using he2),
      if_neg (by omega), if_neg (by simpa using he3), hinf]
    show (if extra.length < 6 then DecodeOutcome.crash
        else DecodeOutcome.ok payload ((extra.getD 4 0 + extra.getD 5 0 * 256 + 1) % 2 ^ 16))
      = DecodeOutcome.ok payload ((extra.getD 4 0 + extra.getD 5 0 * 256 + 1) % 2 ^ 16)
    rw [if_neg (by omega)]

/-- Witness for the C7 theorem: a member whose two-byte extra field starts with
`0x41` draws the malformed-extra error (both sliced bytes exist). -/
theorem decode_extra_outcomes_witness :
    decodeBlock inflateNever [0x1f, 0x8b, 8, 4, 0, 0, 0, 0, 0, 0xff, 2, 0, 0x41, 0x43]
      = .fail :=
  decode_extra_outcomes.2.2.1 inflateNever _ [0x41, 0x43] [] (by rfl) (by decide)
    (Or.inl (by decide))

/-- C8 amended: a reference name matches a contig line exactly when the first
occurrence of the substring `ID=<name>` is immediately followed by `,` or `>`;
the character before the occurrence is never inspected, so in
`##contig=<SOMEID=Y,...>` (where the occurrence is preceded by the letter `E`)
the name `Y` does match. -/
theorem contig_match_characterization :
    (∀ contig refName,
        contigDefinesReference contig refName = some true
          ↔ ∃ i ch, strIndex contig (['I', 'D', '='] ++ refName) = some i
              ∧ contig.get? (i + 3 + refName.length) = some ch
              ∧ (ch = ',' ∨ ch = '>'))
      ∧ contigDefinesReference contigLineCE ['Y'] = some true
      ∧ contigLineCE.get? 13 = some 'E' := by
  refine ⟨?_, by rfl, by rfl⟩
  intro contig refName
  cases hidx : strIndex contig (['I', 'D', '='] ++ refName) with
  | none =>
    simp only [List.cons_append, List.nil_append] at hidx
    simp [contigDefinesReference, hidx]
  | some i =>
    simp only [List.cons_append, List.nil_append] at hidx
    cases hch : contig.get? (i + 3 + refName.length) with
    | none =>
      simp only [List.get?_eq_getElem?] at hch
      simp [contigDefinesReference, hidx, hch]
    | some ch =>
      simp only [List.get?_eq_getElem?] at hch
      simp [contigDefinesReference, hidx, hch]

/-- C4 counterexample: on an index whose virtual metadata bin holds a chunk
starting at 5 while the only regular chunk starts at 100, the header end is
100, not the minimum start 5 over every chunk encountered. -/
theorem bamRead_counterexample :
    bamRead refsCE allMappedReads = [⟨0, 100⟩, ⟨100, 200⟩]
      ∧ (allChunkStarts refsCE).foldl min lastAddress = 5
      ∧ (100 : ℕ) ≠ 5 :=
  ⟨by decide, by decide, by decide⟩

end Htsget
